import Mathlib

/-!
# Supernova cipher engine: a shallow embedding of `Encryptors/Encryptors.go`

Conventions of the embedding.

* A Go `[]byte` (and a Go `string`, which is a byte sequence) is a `List Nat`;
  a list is a well-formed byte sequence when every element is below 256
  (`Bytes`).  Byte arithmetic is written with an explicit `% 256`.
* A Go `int` is an `Int`; lengths are `Nat`.
* A Go run-time panic and `logger.Fatal` are the `abort` outcome of `Outcome`.
* The entropy source behind `crypto/rand` is an explicit script of draws that
  is threaded through the generators (`Entropy`).
* Writes to the console (`fmt.Printf`, `Output.PrintKeyDetails`) do not
  influence any returned value and are left out.
-/

namespace Supernova

/-! ## Outcomes -/

/-- The ways in which a call can stop without returning. -/
inductive Abort where
  /-- run-time panic: integer divide by zero (`i % 0`) -/
  | divideByZero
  /-- run-time panic: `make([]byte, n)` with `n < 0` -/
  | negativeLength
  /-- run-time panic: `bytes.Repeat` with a negative count -/
  | negativeRepeat
  /-- the call `panic("[!] Failed to generate a random key.")` in `GenerateRandomBytes` -/
  | randomKeyFailure
  /-- the call `panic(err)` in the `"aes"` branch of `DetectEncryption` -/
  | cipherError
  /-- panic of `cipher.NewCBCEncrypter`: IV length differs from the block size -/
  | ivLength
  /-- panic of `CryptBlocks`: input is not made of full blocks -/
  | notFullBlocks
  /-- the call `logger.Fatal("Unsupported encryption cipher")` -/
  | unsupportedCipher
deriving DecidableEq, Repr

/-- Result of a call: either it returns `v`, or it aborts. -/
inductive Outcome (α : Type) where
  | ok (v : α)
  | abort (a : Abort)
deriving DecidableEq, Repr

/-- Sequencing of outcomes: an abort stops everything after it. -/
def Outcome.bind {α β : Type} : Outcome α → (α → Outcome β) → Outcome β
  | .ok v, f => f v
  | .abort a, _ => .abort a

/-- A list of naturals is a well-formed byte sequence. -/
def Bytes (l : List Nat) : Prop := ∀ b ∈ l, b < 256

instance (l : List Nat) : Decidable (Bytes l) := by
  unfold Bytes; infer_instance

/-! ## Constants -/

/-- The set of characters used to generate a random passphrase. -/
def chars : String :=
  "abcdefghijklmnopqrstuvwxyzABCDEFGHIJKLMNOPQRSTUVWXYZ0123456789!@#$%^&*()_+\x7b\x7d[]"

/-- Size (in bytes) of the encryption key. -/
def keySize : Nat := 32

/-- Size (in bytes) of the initialization vector. -/
def ivSize : Nat := 16

/-- The constant `aes.BlockSize` of the Go standard library. -/
def aesBlockSize : Nat := 16

/-! ## XOR -/

/-- The loop of `XOREncryption`, started at index `i` on the bytes that are
still to be processed.  Each iteration evaluates `i % keyLen`, which panics
when the key is empty. -/
def xorLoop (key : List Nat) : List Nat → Nat → Outcome (List Nat)
  | [], _ => .ok []
  | b :: rest, i =>
    if key.length = 0 then .abort .divideByZero
    else
      (xorLoop key rest (i + 1)).bind fun tl =>
        .ok ((b ^^^ key.getD (i % key.length) 0) :: tl)

/-- Function `XOREncryption(shellcode, key)`:
`encrypted[i] = shellcode[i] ^ key[i % keyLen]` for `i = 0 .. len(shellcode)-1`. -/
def XOREncryption (shellcode key : List Nat) : Outcome (List Nat) :=
  xorLoop key shellcode 0

/-! ## Caesar (byte-wise shift) -/

/-- Go conversion `byte(n)` of an `int`: the low 8 bits. -/
def toByte (n : Int) : Nat := (n % 256).toNat

/-- Function `CaesarEncryption(shellcode, shift)`:
`encrypted[i] = char + byte(shift)` in wrap-around 8-bit arithmetic. -/
def CaesarEncryption (shellcode : List Nat) (shift : Int) : List Nat :=
  shellcode.map fun char => (char + toByte shift) % 256

/-! ## RC4 -/

/-- The Go statement `s[i], s[j] = s[j], s[i]`: both right-hand sides are read
first, then `s[i]` and `s[j]` are written in that order. -/
def swap (s : List Nat) (i j : Nat) : List Nat :=
  (s.set i (s.getD j 0)).set j (s.getD i 0)

/-- The table after `for i := 0; i < 256; i++ { s[i] = byte(i) }`. -/
def initS : List Nat := (List.range 256).map fun i => i % 256

/-- One iteration of the key-scheduling loop at index `i`, on the state
`(j, s)`:  `j = (j + int(s[i]) + int(key[i%len(key)])) % 256` followed by the
swap.  The remainder by `len(key)` panics when the key is empty. -/
def ksaStep (key : List Nat) (i : Nat) (st : Nat × List Nat) : Outcome (Nat × List Nat) :=
  if key.length = 0 then .abort .divideByZero
  else
    let j := (st.1 + st.2.getD i 0 + key.getD (i % key.length) 0) % 256
    .ok (j, swap st.2 i j)

/-- The key-scheduling loop: `n` iterations starting at index `i`. -/
def ksaLoop (key : List Nat) : Nat → Nat → Nat × List Nat → Outcome (Nat × List Nat)
  | 0, _, st => .ok st
  | n + 1, i, st => (ksaStep key i st).bind fun st1 => ksaLoop key n (i + 1) st1

/-- The whole key schedule: table initialisation, `j := 0`, and the 256
iterations `i = 0 .. 255`. -/
def ksa (key : List Nat) : Outcome (Nat × List Nat) :=
  ksaLoop key 256 0 (0, initS)

/-- The keystream loop on the bytes still to be processed, from the state
`(i, j, s)`. -/
def prga : List Nat → Nat → Nat → List Nat → List Nat
  | [], _, _, _ => []
  | d :: ds, i, j, s =>
    let i1 := (i + 1) % 256
    let j1 := (j + s.getD i1 0) % 256
    let s1 := swap s i1 j1
    (d ^^^ s1.getD ((s1.getD i1 0 + s1.getD j1 0) % 256) 0) :: prga ds i1 j1 s1

/-- Function `RC4Encryption(data, key)`: key schedule, then the keystream loop started
with `i, j := 0, 0` on the scheduled table. -/
def RC4Encryption (data key : List Nat) : Outcome (List Nat) :=
  (ksa key).bind fun st => .ok (prga data 0 0 st.2)

/-- The state `(i, j, s)` of the keystream loop after the bytes of `data` have
been processed, started from the state `(i, j, s)`: the same three updates as
in `prga`, without the output. -/
def prgaState : List Nat → Nat → Nat → List Nat → Nat × Nat × List Nat
  | [], i, j, s => (i, j, s)
  | _ :: ds, i, j, s =>
    let i1 := (i + 1) % 256
    let j1 := (j + s.getD i1 0) % 256
    let s1 := swap s i1 j1
    prgaState ds i1 j1 s1

/-- The table holds every byte value `0 .. 255` exactly once. -/
def IsPermutation (s : List Nat) : Prop := List.Perm s (List.range 256)

instance (s : List Nat) : Decidable (IsPermutation s) := by
  unfold IsPermutation; infer_instance

/-! ## PKCS7 padding and AES-256-CBC -/

/-- Function `PKCS7Padding(data, blockSize)`:
`padding := blockSize - (len(data) % blockSize)` with Go's truncated remainder
(a zero `blockSize` panics), `padText := bytes.Repeat([]byte{byte(padding)}, padding)`
(a negative count panics), result `append(data, padText...)`. -/
def PKCS7Padding (data : List Nat) (blockSize : Int) : Outcome (List Nat) :=
  if blockSize = 0 then .abort .divideByZero
  else
    let padding : Int := blockSize - Int.tmod (data.length : Int) blockSize
    if padding < 0 then .abort .negativeRepeat
    else .ok (data ++ List.replicate padding.toNat (toByte padding))

/-- The block function of the Go standard library (`crypto/aes`), taken as a
parameter: `encrypt key blk` is the encryption of the 16-byte block `blk`
under `key`, and it is again a 16-byte block. -/
structure AESBlock where
  encrypt : List Nat → List Nat → List Nat
  encrypt_length : ∀ key blk, blk.length = 16 → (encrypt key blk).length = 16

/-- A stand-in block function (the identity on blocks), used to run the
embedding on concrete inputs. -/
def identityBlock : AESBlock where
  encrypt := fun _ blk => blk
  encrypt_length := fun _ _ h => h

/-- Byte-wise XOR of two blocks. -/
def xorBytes (a b : List Nat) : List Nat := List.zipWith (fun x y => x ^^^ y) a b

/-- The chaining loop of `CryptBlocks` in CBC mode over `n` blocks: each
ciphertext block is the encryption of the plaintext block XOR the previous
ciphertext block (the IV for the first one). -/
def cbcLoop (E : AESBlock) (key : List Nat) : Nat → List Nat → List Nat → List Nat
  | 0, _, _ => []
  | n + 1, prev, src =>
    let c := E.encrypt key (xorBytes (src.take 16) prev)
    c ++ cbcLoop E key n c (src.drop 16)

/-- A Go result pair `([]byte, error)` of `AESEncryption`. -/
inductive AESReturn where
  /-- the pair `(ciphertext, nil)` -/
  | value (ciphertext : List Nat)
  /-- the pair `(nil, err)` with `err = aes.KeySizeError(keyLen)` -/
  | error (keyLen : Nat)
deriving DecidableEq, Repr

/-- Function `AESEncryption(key, iv, plaintext)`.  `aes.NewCipher` returns an error
unless the key has 16, 24 or 32 bytes; the plaintext is padded to the block
size; `cipher.NewCBCEncrypter` panics unless the IV has 16 bytes; `CryptBlocks`
panics unless its input is made of full blocks. -/
def AESEncryption (E : AESBlock) (key iv plaintext : List Nat) : Outcome AESReturn :=
  if key.length ≠ 16 ∧ key.length ≠ 24 ∧ key.length ≠ 32 then .ok (.error key.length)
  else
    (PKCS7Padding plaintext aesBlockSize).bind fun paddedData =>
      if iv.length ≠ aesBlockSize then .abort .ivLength
      else if paddedData.length % aesBlockSize ≠ 0 then .abort .notFullBlocks
      else .ok (.value (cbcLoop E key (paddedData.length / aesBlockSize) iv paddedData))

/-! ## The entropy source and the generators -/

/-- The entropy source as a script: the outcomes of its successive draws, one
draw for every byte that is read from it, `some v` for a draw that delivers
the byte `v % 256` and `none` for a draw on which the source reports an error.
An exhausted script reports an error. -/
abbrev Entropy := List (Option Nat)

/-- The first `n` draws of the source all succeed. -/
def Succeeds (n : Nat) (ent : Entropy) : Prop :=
  n ≤ ent.length ∧ ∀ d ∈ ent.take n, d ≠ none

instance (n : Nat) (ent : Entropy) : Decidable (Succeeds n ent) := by
  unfold Succeeds; infer_instance

/-- Library call `rand.Read` on a buffer of `n` bytes: one draw per byte, each truncated to
a byte; the first failing draw makes the call return an error. The second
component is what is left of the source. -/
def randRead : Nat → Entropy → Option (List Nat) × Entropy
  | 0, ent => (some [], ent)
  | _ + 1, [] => (none, [])
  | _ + 1, none :: rest => (none, rest)
  | n + 1, some v :: rest =>
    match randRead n rest with
    | (some bs, r) => (some (v % 256 :: bs), r)
    | (none, r) => (none, r)

/-- Bit length of a number (`big.Int.BitLen`), computed with `fuel` halvings
at most. -/
def bitLenAux : Nat → Nat → Nat
  | 0, _ => 0
  | fuel + 1, n => if n = 0 then 0 else bitLenAux fuel (n / 2) + 1

/-- Bit length of a number (`big.Int.BitLen`): 0 for 0, and the position of the
highest set bit otherwise. -/
def bitLen (n : Nat) : Nat := bitLenAux n n

/-- The statement `bytes[0] &= uint8(int(1<<b) - 1)`: the first byte keeps its
low `b` bits. -/
def maskFirst (b : Nat) : List Nat → List Nat
  | [] => []
  | x :: xs => x % 2 ^ b :: xs

/-- The number with the big-endian bytes `bs` (`big.Int.SetBytes`). -/
def fromBytes (bs : List Nat) : Nat := bs.foldl (fun acc x => acc * 256 + x) 0

/-- The rejection loop of `rand.Int`: read `k` bytes, mask the first one to `b`
bits, and return the candidate if it is below `max`; otherwise read again.  A
failing read ends the loop with an error.  Every turn consumes draws, so
`fuel` above the length of the source is never used up. -/
def randIntLoop (max k b : Nat) : Nat → Entropy → Option Nat × Entropy
  | 0, ent => (none, ent)
  | fuel + 1, ent =>
    match randRead k ent with
    | (none, rest) => (none, rest)
    | (some bytes, rest) =>
      if fromBytes (maskFirst b bytes) < max then (some (fromBytes (maskFirst b bytes)), rest)
      else randIntLoop max k b fuel rest

/-- Library call `rand.Int(rand.Reader, max)` for `max > 0`: with `bitLen` the
bit length of `max - 1`, the result is 0 without any read when `bitLen = 0`;
otherwise candidates of `k = (bitLen + 7) / 8` bytes, the first masked to
`b = bitLen % 8` bits (8 when that is 0), are read until one is below `max`. -/
def randInt (max : Nat) (ent : Entropy) : Option Nat × Entropy :=
  if bitLen (max - 1) = 0 then (some 0, ent)
  else
    randIntLoop max ((bitLen (max - 1) + 7) / 8)
      (if bitLen (max - 1) % 8 = 0 then 8 else bitLen (max - 1) % 8) (ent.length + 1) ent

/-- Function `GenerateRandomBytes(length)`: `make([]byte, length)` panics on a negative
length; an error of `rand.Read` is turned into a panic. -/
def GenerateRandomBytes (length : Int) (ent : Entropy) : Outcome (List Nat × Entropy) :=
  if length < 0 then .abort .negativeLength
  else
    match randRead length.toNat ent with
    | (none, _) => .abort .randomKeyFailure
    | (some randomBytes, rest) => .ok (randomBytes, rest)

/-- The bytes of the string constant `chars` (every character is ASCII, hence
one byte). -/
def charsBytes : List Nat := chars.data.map Char.toNat

/-- A draw from which `rand.Int` gets an index into `chars`: the draw succeeds
and its byte, masked to 7 bits, is below the size of the alphabet. -/
def accepted : Option Nat → Bool
  | some v => decide (v % 256 % 128 < charsBytes.length)
  | none => false

/-- The source yields `n` passphrase indices: for some `m` the first `m` draws
succeed and at least `n` of them are accepted. -/
def Yields (n : Nat) (ent : Entropy) : Prop :=
  ∃ m, Succeeds m ent ∧ n ≤ (ent.take m).countP accepted


/-- The loop of `GenerateRandomPassphrase` over `n` positions: `none` when
`rand.Int` returns an error (the function then returns `""`), otherwise the
bytes `chars[randomIndex]` that were written. -/
def passphraseLoop : Nat → Entropy → Option (List Nat) × Entropy
  | 0, ent => (some [], ent)
  | n + 1, ent =>
    match randInt charsBytes.length ent with
    | (none, rest) => (none, rest)
    | (some randomIndex, rest) =>
      match passphraseLoop n rest with
      | (some tl, r) => (some (charsBytes.getD randomIndex 0 :: tl), r)
      | (none, r) => (none, r)

/-- Function `GenerateRandomPassphrase(length)`: `make([]byte, length)` panics on a
negative length; an error of `rand.Int` makes the function return the empty
string. -/
def GenerateRandomPassphrase (length : Int) (ent : Entropy) : Outcome (List Nat × Entropy) :=
  if length < 0 then .abort .negativeLength
  else
    match passphraseLoop length.toNat ent with
    | (none, rest) => .ok ([], rest)
    | (some passphrase, rest) => .ok (passphrase, rest)

/-! ## The dispatcher -/

/-- Library call `strings.ToLower` on the cipher name.  Letters `A`-`Z` are mapped to
`a`-`z`; other characters are kept.  (Go also maps non-ASCII upper-case
letters; none of them is mapped to a character of a supported name, so the
branch selected below is the same.) -/
def toLower (s : String) : String := String.mk (s.data.map Char.toLower)

/-- Function `DetectEncryption(cipher, shellcode, key)`.  The formatter
`Converters.FormatShellcode` is a parameter; the shellcode is given by its
bytes.  Returns the formatted ciphertext and the ciphertext length. -/
def DetectEncryption (E : AESBlock) (FormatShellcode : List Nat → String)
    (cipher : String) (shellcode : List Nat) (key : Int) (ent : Entropy) :
    Outcome (String × Nat) :=
  let cipher := toLower cipher
  let shift := key
  if cipher = "xor" then
    (GenerateRandomBytes shift ent).bind fun xorKey =>
      (XOREncryption shellcode xorKey.1).bind fun encryptedShellcode =>
        .ok (FormatShellcode encryptedShellcode, encryptedShellcode.length)
  else if cipher = "rot" then
    let encryptedShellcode := CaesarEncryption shellcode shift
    .ok (FormatShellcode encryptedShellcode, encryptedShellcode.length)
  else if cipher = "aes" then
    (GenerateRandomBytes keySize ent).bind fun key =>
      (GenerateRandomBytes ivSize key.2).bind fun iv =>
        (AESEncryption E key.1 iv.1 shellcode).bind fun r =>
          match r with
          | .error _ => .abort .cipherError
          | .value encryptedShellcode =>
            .ok (FormatShellcode encryptedShellcode, encryptedShellcode.length)
  else if cipher = "rc4" then
    (GenerateRandomPassphrase key ent).bind fun randomPassphrase =>
      (RC4Encryption shellcode randomPassphrase.1).bind fun encryptedShellcode =>
        .ok (FormatShellcode encryptedShellcode, encryptedShellcode.length)
  else .abort .unsupportedCipher

/-! ## Sequencing lemmas -/

@[simp] theorem Outcome.bind_ok {α β : Type} (v : α) (f : α → Outcome β) :
    (Outcome.ok v).bind f = f v := rfl

@[simp] theorem Outcome.bind_abort {α β : Type} (a : Abort) (f : α → Outcome β) :
    (Outcome.abort a : Outcome α).bind f = .abort a := rfl

/-! ## XOR -/

/-- The loop started at index `i` returns, and its `k`-th output byte is the
`k`-th remaining input byte XOR the key byte at `(i + k) % len(key)`. -/
theorem xorLoop_ok (key : List Nat) (hkey : 1 ≤ key.length) :
    ∀ (data : List Nat) (i : Nat), ∃ out, xorLoop key data i = .ok out ∧
      out.length = data.length ∧
      ∀ k (hk : k < data.length),
        out[k]? = some (data[k] ^^^ key.getD ((i + k) % key.length) 0) := by
  intro data
  induction data with
  | nil => intro i; exact ⟨[], rfl, rfl, fun k hk => absurd hk (by simp)⟩
  | cons b rest ih =>
    intro i
    obtain ⟨tl, htl, hlen, hget⟩ := ih (i + 1)
    refine ⟨(b ^^^ key.getD (i % key.length) 0) :: tl, ?_, by simp [hlen], ?_⟩
    · have hne : key.length ≠ 0 := by omega
      simp [xorLoop, hne, htl]
    · intro k hk
      cases k with
      | zero => simp
      | succ k =>
        have hk2 : k < rest.length := by simpa using hk
        have hidx : i + 1 + k = i + (k + 1) := by omega
        have := hget k hk2
        rw [hidx] at this
        simp only [List.getElem?_cons_succ, List.getElem_cons_succ]
        exact this

/-- Running the loop again on its own output, from the same index and with the
same key, gives the input back. -/
theorem xorLoop_involutive (key : List Nat) :
    ∀ (data out : List Nat) (i : Nat), xorLoop key data i = .ok out →
      xorLoop key out i = .ok data := by
  intro data
  induction data with
  | nil =>
    intro out i h
    simp [xorLoop] at h
    subst h; rfl
  | cons b rest ih =>
    intro out i h
    by_cases hne : key.length = 0
    · simp [xorLoop, hne] at h
    · simp only [xorLoop, hne, if_false] at h
      cases htl : xorLoop key rest (i + 1) with
      | abort a => rw [htl] at h; simp at h
      | ok tl =>
        rw [htl] at h
        simp only [Outcome.bind_ok, Outcome.ok.injEq] at h
        subst h
        simp [xorLoop, hne, ih tl (i + 1) htl, Nat.xor_cancel_right]

/-- With a non-empty key `XOREncryption` returns a sequence as long as the
data. -/
theorem XOREncryption_ok (data key : List Nat) (hkey : 1 ≤ key.length) :
    ∃ out, XOREncryption data key = .ok out ∧ out.length = data.length ∧
      ∀ k (hk : k < data.length),
        out[k]? = some (data[k] ^^^ key.getD (k % key.length) 0) := by
  simpa using xorLoop_ok key hkey data 0

/-- Claim C2: for every byte sequence `data` and every key of length at least
one, `XOREncryption(data, key)` returns a sequence of the same length as `data`
whose `k`-th byte is `data[k] XOR key[k mod len(key)]`. -/
theorem XOREncryption_spec (data key : List Nat) (hkey : 1 ≤ key.length) :
    ∃ out, XOREncryption data key = .ok out ∧ out.length = data.length ∧
      ∀ k (hk : k < data.length),
        out[k]? = some (data[k] ^^^ key.get ⟨k % key.length, Nat.mod_lt k hkey⟩) := by
  obtain ⟨out, hout, hlen, hget⟩ := xorLoop_ok key hkey data 0
  refine ⟨out, hout, hlen, fun k hk => ?_⟩
  rw [hget k hk, Nat.zero_add, List.getD_eq_getElem _ _ (Nat.mod_lt k hkey)]
  rfl

/-- Claim C2, witness: data 01 02 03 FF under the two-byte key 07 09. -/
theorem XOREncryption_spec_witness :
    ∃ out, XOREncryption [1, 2, 3, 255] [7, 9] = .ok out ∧ out.length = 4 ∧
      out[0]? = some 6 ∧ out[1]? = some 11 ∧ out[2]? = some 4 ∧ out[3]? = some 246 := by
  obtain ⟨out, h, hlen, hget⟩ := XOREncryption_spec [1, 2, 3, 255] [7, 9] (by decide)
  exact ⟨out, h, hlen, hget 0 (by decide), hget 1 (by decide), hget 2 (by decide),
    hget 3 (by decide)⟩

/-- Claim C3: for every plaintext `P` and every key `K` of length at least one,
`XOREncryption(P, K)` returns some `C`, and `XOREncryption(C, K)` returns `P`. -/
theorem XOREncryption_involution (P K : List Nat) (hK : 1 ≤ K.length) :
    ∃ C, XOREncryption P K = .ok C ∧ XOREncryption C K = .ok P := by
  obtain ⟨C, hC, -, -⟩ := xorLoop_ok K hK P 0
  exact ⟨C, hC, xorLoop_involutive K P C 0 hC⟩

/-- Claim C3, witness: a four-byte plaintext under a three-byte key. -/
theorem XOREncryption_involution_witness :
    ∃ C, XOREncryption [72, 105, 0, 255] [1, 2, 3] = .ok C ∧
      XOREncryption C [1, 2, 3] = .ok [72, 105, 0, 255] :=
  XOREncryption_involution [72, 105, 0, 255] [1, 2, 3] (by decide)

/-! ## Caesar -/

/-- Adding the low 8 bits of the shift and wrapping is adding the shift and
taking the non-negative remainder modulo 256. -/
theorem caesar_byte (char : Nat) (shift : Int) :
    (((char + toByte shift) % 256 : Nat) : Int) = ((char : Int) + shift) % 256 := by
  unfold toByte
  have h0 : 0 ≤ shift % 256 := Int.emod_nonneg _ (by decide)
  push_cast
  rw [Int.toNat_of_nonneg h0]
  omega

/-- Claim C4: for every byte sequence `data` and every integer `shift`
(negative or above 255 included), `CaesarEncryption(data, shift)` has the
length of `data`, its `k`-th byte is the non-negative remainder of
`data[k] + shift` modulo 256, and two shifts with the same low 8 bits give the
same output. -/
theorem CaesarEncryption_spec (data : List Nat) (shift : Int) :
    (CaesarEncryption data shift).length = data.length ∧
    (∀ k (hk : k < data.length),
      (CaesarEncryption data shift)[k]? = some (((data[k] : Int) + shift) % 256).toNat) ∧
    (∀ shift2 : Int, shift2 % 256 = shift % 256 →
      CaesarEncryption data shift2 = CaesarEncryption data shift) := by
  refine ⟨by simp [CaesarEncryption], fun k hk => ?_, fun shift2 h => ?_⟩
  · simp only [CaesarEncryption, List.getElem?_map, List.getElem?_eq_getElem hk,
      Option.map_some', Option.some.injEq]
    rw [← caesar_byte, Int.toNat_ofNat]
  · simp [CaesarEncryption, toByte, h]

/-- Claim C4, witness: the negative shift -3, and the shift 253 with the same low
8 bits. -/
theorem CaesarEncryption_spec_witness :
    (CaesarEncryption [0, 200, 255] (-3)).length = 3 ∧
    (CaesarEncryption [0, 200, 255] (-3))[1]? = some 197 ∧
    CaesarEncryption [0, 200, 255] 253 = CaesarEncryption [0, 200, 255] (-3) :=
  ⟨(CaesarEncryption_spec [0, 200, 255] (-3)).1,
   (CaesarEncryption_spec [0, 200, 255] (-3)).2.1 1 (by decide),
   (CaesarEncryption_spec [0, 200, 255] (-3)).2.2 253 (by decide)⟩

/-- Claim C5: for every plaintext `P` (a byte sequence) and every shift `s`
with `0 ≤ s ≤ 255`, shifting by `s` and then by `(256 - s) mod 256` gives `P`
back. -/
theorem CaesarEncryption_roundtrip (P : List Nat) (hP : Bytes P) (s : Int)
    (h0 : 0 ≤ s) (h255 : s ≤ 255) :
    CaesarEncryption (CaesarEncryption P s) ((256 - s) % 256) = P := by
  unfold CaesarEncryption
  rw [List.map_map]
  conv_rhs => rw [← List.map_id P]
  apply List.map_congr_left
  intro b hb
  have hb256 : b < 256 := hP b hb
  simp only [Function.comp_apply, id_eq, toByte]
  omega

/-- Claim C5, witness: shift 200 followed by shift 56. -/
theorem CaesarEncryption_roundtrip_witness :
    Bytes [0, 1, 128, 255] ∧
    CaesarEncryption (CaesarEncryption [0, 1, 128, 255] 200) ((256 - 200) % 256)
      = [0, 1, 128, 255] :=
  ⟨by decide, CaesarEncryption_roundtrip [0, 1, 128, 255] (by decide) 200 (by decide) (by decide)⟩

/-! ## PKCS7 padding -/

/-- For a positive block size the padding function returns the data followed by
`P = B - len(data) mod B` bytes, `1 ≤ P ≤ B`, each holding `P` truncated to a
byte. -/
theorem PKCS7Padding_pos (data : List Nat) (B : Nat) (hB : 0 < B) :
    PKCS7Padding data (B : Int) =
      .ok (data ++ List.replicate (B - data.length % B) ((B - data.length % B) % 256)) := by
  have hlt : data.length % B < B := Nat.mod_lt _ hB
  have hne : (B : Int) ≠ 0 := by omega
  have hmod : Int.tmod (data.length : Int) (B : Int) = ((data.length % B : Nat) : Int) := by
    rw [Int.tmod_eq_emod (by omega) (by omega)]
    norm_cast
  have hpad : (B : Int) - ((data.length % B : Nat) : Int) = ((B - data.length % B : Nat) : Int) := by
    omega
  unfold PKCS7Padding
  simp only [hne, if_false, hmod, hpad]
  have hnn : ¬ (((B - data.length % B : Nat) : Int) < 0) := by omega
  simp only [hnn, if_false, Int.toNat_ofNat, toByte]
  congr 3

/-- Claim C6 (as amended): for every byte sequence `data` and every positive
block size `B`, `PKCS7Padding(data, B)` returns `data` followed by `P`
appended bytes, where `P = B - (len(data) mod B)` satisfies `1 ≤ P ≤ B`, and
every appended byte has the value `P mod 256`, which is `P` itself whenever
`B ≤ 255`. -/
theorem PKCS7Padding_spec (data : List Nat) (B : Int) (hB : 0 < B) :
    ∃ P : Nat, (P : Int) = B - (data.length : Int) % B ∧ 1 ≤ P ∧ (P : Int) ≤ B ∧
      PKCS7Padding data B = .ok (data ++ List.replicate P (P % 256)) ∧
      (B ≤ 255 → P % 256 = P) := by
  obtain ⟨n, rfl⟩ := Int.eq_ofNat_of_zero_le (le_of_lt hB)
  have hn : 0 < n := by exact_mod_cast hB
  have hlt : data.length % n < n := Nat.mod_lt _ hn
  refine ⟨n - data.length % n, ?_, by omega, by omega, PKCS7Padding_pos data n hn, fun h => ?_⟩
  · have : ((data.length : Int) % (n : Int)) = ((data.length % n : Nat) : Int) := by norm_cast
    rw [this]; omega
  · have : n ≤ 255 := by exact_mod_cast h
    exact Nat.mod_eq_of_lt (by omega)

/-- Claim C6 (as amended), witness: a block-aligned input of 16 bytes with block
size 16. -/
theorem PKCS7Padding_spec_witness :
    ∃ P : Nat, (P : Int) = 16 - ((List.replicate 16 7).length : Int) % 16 ∧ 1 ≤ P ∧ (P : Int) ≤ 16 ∧
      PKCS7Padding (List.replicate 16 7) 16
        = .ok (List.replicate 16 7 ++ List.replicate P (P % 256)) ∧
      ((16 : Int) ≤ 255 → P % 256 = P) :=
  PKCS7Padding_spec (List.replicate 16 7) 16 (by decide)

set_option maxRecDepth 100000 in
/-- Claim C6, counterexample: with block size 256 and empty data the padding
length is `P = 256`, and the 256 appended bytes hold 0, not `P`. -/
theorem PKCS7Padding_counterexample :
    PKCS7Padding [] 256 = .ok (List.replicate 256 0) ∧
    PKCS7Padding [] 256 ≠ .ok ([] ++ List.replicate 256 256) := by
  decide!

/-! ## RC4 -/

set_option maxRecDepth 100000 in
/-- Claim C1: `RC4Encryption` applied to the 9 ASCII bytes of "Plaintext" with
the 3 ASCII bytes of "Key" as key returns exactly the bytes
BB F3 16 E8 D9 40 AF 0A D3 (hex). -/
theorem RC4Encryption_known_vector :
    RC4Encryption ("Plaintext".data.map Char.toNat) ("Key".data.map Char.toNat)
      = .ok [0xBB, 0xF3, 0x16, 0xE8, 0xD9, 0x40, 0xAF, 0x0A, 0xD3] := by
  decide!

/-! ## The entropy source -/

theorem succeeds_zero (ent : Entropy) : Succeeds 0 ent := by
  simp [Succeeds]

theorem succeeds_cons (n : Nat) (d : Option Nat) (rest : Entropy) :
    Succeeds (n + 1) (d :: rest) ↔ d ≠ none ∧ Succeeds n rest := by
  simp only [Succeeds, List.length_cons, List.take_succ_cons, List.mem_cons, forall_eq_or_imp]
  constructor
  · rintro ⟨h1, h2, h3⟩; exact ⟨h2, by omega, h3⟩
  · rintro ⟨h1, h2, h3⟩; exact ⟨by omega, h1, h3⟩

theorem not_succeeds_nil (n : Nat) : ¬ Succeeds (n + 1) [] := by
  simp [Succeeds]

/-- When the first `m + n` draws succeed, so do the first `m`, and the `n`
draws after them. -/
theorem succeeds_add (m n : Nat) : ∀ ent : Entropy, Succeeds (m + n) ent →
    Succeeds m ent ∧ Succeeds n (ent.drop m) := by
  induction m with
  | zero => intro ent h; exact ⟨succeeds_zero ent, by simpa using h⟩
  | succ m ih =>
    intro ent h
    cases ent with
    | nil => exact absurd h (by rw [Nat.add_right_comm]; exact not_succeeds_nil _)
    | cons d rest =>
      rw [Nat.add_right_comm, succeeds_cons] at h
      obtain ⟨h1, h2⟩ := ih rest h.2
      exact ⟨(succeeds_cons m d rest).2 ⟨h.1, h1⟩, by simpa using h2⟩

/-- When the first `n` draws succeed, `rand.Read` fills all `n` bytes and
consumes exactly those draws. -/
theorem randRead_of_succeeds (n : Nat) : ∀ ent : Entropy, Succeeds n ent →
    ∃ bs, randRead n ent = (some bs, ent.drop n) ∧ bs.length = n ∧ Bytes bs := by
  induction n with
  | zero => intro ent _; exact ⟨[], rfl, rfl, by simp [Bytes]⟩
  | succ n ih =>
    intro ent h
    cases ent with
    | nil => exact absurd h (not_succeeds_nil n)
    | cons d rest =>
      rw [succeeds_cons] at h
      cases d with
      | none => exact absurd rfl h.1
      | some v =>
        obtain ⟨bs, hbs, hlen, hbytes⟩ := ih rest h.2
        refine ⟨v % 256 :: bs, by simp [randRead, hbs], by simp [hlen], ?_⟩
        intro b hb
        rcases List.mem_cons.1 hb with rfl | hb
        · exact Nat.mod_lt _ (by decide)
        · exact hbytes b hb

/-- When one of the first `n` draws fails, `rand.Read` reports an error. -/
theorem randRead_of_not_succeeds (n : Nat) : ∀ ent : Entropy, ¬ Succeeds n ent →
    (randRead n ent).1 = none := by
  induction n with
  | zero => intro ent h; exact absurd (succeeds_zero ent) h
  | succ n ih =>
    intro ent h
    cases ent with
    | nil => rfl
    | cons d rest =>
      cases d with
      | none => rfl
      | some v =>
        have hrest : ¬ Succeeds n rest := fun hs =>
          h ((succeeds_cons n (some v) rest).2 ⟨by simp, hs⟩)
        have := ih rest hrest
        simp only [randRead]
        cases hr : randRead n rest with
        | mk o r =>
          rw [hr] at this
          simp only at this
          subst this
          rfl

/-- Whatever `rand.Read` returns without error has the requested length. -/
theorem randRead_length (n : Nat) : ∀ (ent : Entropy) (bs : List Nat) (r : Entropy),
    randRead n ent = (some bs, r) → bs.length = n := by
  intro ent bs r h
  by_cases hs : Succeeds n ent
  · obtain ⟨bs2, h2, hlen, -⟩ := randRead_of_succeeds n ent hs
    rw [h2] at h
    simp only [Prod.mk.injEq, Option.some.injEq] at h
    rw [← h.1]; exact hlen
  · have := randRead_of_not_succeeds n ent hs
    rw [h] at this
    simp at this

/-- When the first `n` draws succeed, `GenerateRandomBytes(n)` returns `n`
bytes and leaves the rest of the source. -/
theorem GenerateRandomBytes_ok (n : Nat) (ent : Entropy) (hs : Succeeds n ent) :
    ∃ bs, GenerateRandomBytes (n : Int) ent = .ok (bs, ent.drop n) ∧
      bs.length = n ∧ Bytes bs := by
  obtain ⟨bs, hbs, hlen, hbytes⟩ := randRead_of_succeeds n ent hs
  have hneg : ¬ ((n : Int) < 0) := by omega
  exact ⟨bs, by simp [GenerateRandomBytes, hneg, hbs], hlen, hbytes⟩

/-- Claim C10: for every `n ≥ 0`, `GenerateRandomBytes(n)` returns a byte
sequence of exactly `n` bytes when the entropy source succeeds on the `n`
draws, aborts with its panic (returning nothing) when the source fails, and
whatever it returns has exactly `n` bytes. -/
theorem GenerateRandomBytes_spec (n : Int) (hn : 0 ≤ n) (ent : Entropy) :
    (Succeeds n.toNat ent →
      ∃ bs, GenerateRandomBytes n ent = .ok (bs, ent.drop n.toNat) ∧
        (bs.length : Int) = n ∧ Bytes bs) ∧
    (¬ Succeeds n.toNat ent → GenerateRandomBytes n ent = .abort .randomKeyFailure) ∧
    (∀ bs rest, GenerateRandomBytes n ent = .ok (bs, rest) → (bs.length : Int) = n) := by
  have hneg : ¬ n < 0 := by omega
  refine ⟨fun hs => ?_, fun hs => ?_, fun bs rest h => ?_⟩
  · obtain ⟨bs, hbs, hlen, hbytes⟩ := randRead_of_succeeds n.toNat ent hs
    refine ⟨bs, by simp [GenerateRandomBytes, hneg, hbs], ?_, hbytes⟩
    rw [hlen]; exact Int.toNat_of_nonneg hn
  · have := randRead_of_not_succeeds n.toNat ent hs
    cases hr : randRead n.toNat ent with
    | mk o r =>
      rw [hr] at this
      simp only at this
      subst this
      simp [GenerateRandomBytes, hneg, hr]
  · cases hr : randRead n.toNat ent with
    | mk o r =>
      cases o with
      | none => simp [GenerateRandomBytes, hneg, hr] at h
      | some bs2 =>
        simp only [GenerateRandomBytes, hneg, hr, if_false, Outcome.ok.injEq,
          Prod.mk.injEq] at h
        rw [← h.1, randRead_length n.toNat ent bs2 r hr]
        exact Int.toNat_of_nonneg hn

/-- Claim C10, witness: two successful draws followed by a failing one, an
exhausted source, and the request for zero bytes. -/
theorem GenerateRandomBytes_spec_witness :
    (∃ bs, GenerateRandomBytes 2 [some 300, some 7, none] = .ok (bs, [none]) ∧
        (bs.length : Int) = 2 ∧ Bytes bs) ∧
    GenerateRandomBytes 3 [some 300, some 7, none] = .abort .randomKeyFailure ∧
    GenerateRandomBytes 3 [some 300, some 7] = .abort .randomKeyFailure ∧
    GenerateRandomBytes 0 [] = .ok ([], []) :=
  ⟨(GenerateRandomBytes_spec 2 (by decide) [some 300, some 7, none]).1 (by decide),
   (GenerateRandomBytes_spec 3 (by decide) [some 300, some 7, none]).2.1 (by decide),
   (GenerateRandomBytes_spec 3 (by decide) [some 300, some 7]).2.1 (by decide),
   by decide⟩

/-! ## AES-256-CBC -/

/-- The chaining loop over `n` full blocks produces `n` blocks. -/
theorem cbcLoop_length (E : AESBlock) (key : List Nat) (n : Nat) :
    ∀ prev src : List Nat, prev.length = 16 → src.length = 16 * n →
      (cbcLoop E key n prev src).length = 16 * n := by
  induction n with
  | zero => intro prev src _ _; rfl
  | succ n ih =>
    intro prev src hprev hsrc
    have hblk : (xorBytes (src.take 16) prev).length = 16 := by
      simp only [xorBytes, List.length_zipWith, List.length_take, hprev, hsrc]
      omega
    have hc := E.encrypt_length key _ hblk
    have hdrop : (src.drop 16).length = 16 * n := by
      simp only [List.length_drop, hsrc]; omega
    simp only [cbcLoop, List.length_append, hc, ih _ _ hc hdrop]
    omega

/-- With a 32-byte key and a 16-byte IV the call returns the chained
encryption of the padded plaintext. -/
theorem AESEncryption_ok (E : AESBlock) (key iv plaintext : List Nat)
    (hkey : key.length = 32) (hiv : iv.length = 16) :
    AESEncryption E key iv plaintext =
      .ok (.value (cbcLoop E key (plaintext.length / 16 + 1) iv
        (plaintext ++ List.replicate (16 - plaintext.length % 16)
          ((16 - plaintext.length % 16) % 256)))) := by
  have hpad := PKCS7Padding_pos plaintext 16 (by decide)
  have hlt : plaintext.length % 16 < 16 := Nat.mod_lt _ (by decide)
  have hlen : (plaintext ++ List.replicate (16 - plaintext.length % 16)
      ((16 - plaintext.length % 16) % 256)).length = 16 * (plaintext.length / 16 + 1) := by
    simp only [List.length_append, List.length_replicate]
    omega
  unfold AESEncryption
  simp only [aesBlockSize, hkey, hiv]
  rw [show ((16 : Nat) : Int) = ((16 : Nat) : Int) from rfl, hpad]
  simp only [Outcome.bind_ok, hlen]
  simp

/-- The ciphertext length of `AESEncryption` under a 32-byte key and a 16-byte
IV. -/
theorem AESEncryption_value_length (E : AESBlock) (key iv plaintext : List Nat)
    (hkey : key.length = 32) (hiv : iv.length = 16) :
    ∃ ct, AESEncryption E key iv plaintext = .ok (.value ct) ∧
      ct.length = 16 * (plaintext.length / 16 + 1) := by
  refine ⟨_, AESEncryption_ok E key iv plaintext hkey hiv, ?_⟩
  have hlt : plaintext.length % 16 < 16 := Nat.mod_lt _ (by decide)
  apply cbcLoop_length E key _ iv _ hiv
  simp only [List.length_append, List.length_replicate]
  omega

/-- Claim C7: for every 32-byte key, 16-byte IV and plaintext of length `n`,
`AESEncryption` returns a ciphertext (not an error) of length
`16 * (n div 16 + 1)`, the smallest multiple of 16 that is at least `n + 1`,
hence between 1 and 16 bytes longer than the plaintext; and for cipher "aes"
(in any letter case), when the entropy source succeeds on the 48 draws,
`DetectEncryption` returns that length. -/
theorem AESEncryption_length (E : AESBlock) (plaintext : List Nat) :
    (∀ key iv : List Nat, key.length = 32 → iv.length = 16 →
      ∃ ct, AESEncryption E key iv plaintext = .ok (.value ct) ∧
        ct.length = 16 * (plaintext.length / 16 + 1) ∧
        16 ∣ ct.length ∧ plaintext.length + 1 ≤ ct.length ∧
        (∀ m, 16 ∣ m → plaintext.length + 1 ≤ m → ct.length ≤ m) ∧
        ct.length ≤ plaintext.length + 16) ∧
    (∀ (FormatShellcode : List Nat → String) (cipher : String) (param : Int) (ent : Entropy),
      toLower cipher = "aes" → Succeeds 48 ent →
      ∃ out, DetectEncryption E FormatShellcode cipher plaintext param ent
        = .ok (out, 16 * (plaintext.length / 16 + 1))) := by
  constructor
  · intro key iv hkey hiv
    obtain ⟨ct, hct, hlen⟩ := AESEncryption_value_length E key iv plaintext hkey hiv
    refine ⟨ct, hct, hlen, ⟨_, hlen⟩, by omega, ?_, by omega⟩
    rintro m ⟨q, rfl⟩ hm
    rw [hlen]
    have : plaintext.length / 16 + 1 ≤ q := by omega
    omega
  · intro fmt cipher param ent hc hs
    obtain ⟨hs32, hs16⟩ := succeeds_add 32 16 ent hs
    obtain ⟨key, hkey, hklen, -⟩ := (GenerateRandomBytes_ok 32 ent hs32)
    obtain ⟨iv, hiv, hivlen, -⟩ := (GenerateRandomBytes_ok 16 (ent.drop 32) hs16)
    obtain ⟨ct, hct, hlen⟩ := AESEncryption_value_length E key iv plaintext hklen hivlen
    refine ⟨fmt ct, ?_⟩
    simp only [Nat.cast_ofNat] at hkey hiv
    simp [DetectEncryption, hc, keySize, ivSize, hkey, hiv, hct, hlen]

/-- Claim C7, witness: a three-byte plaintext, padded to one block. -/
theorem AESEncryption_length_witness :
    (∃ ct, AESEncryption identityBlock (List.replicate 32 1) (List.replicate 16 2) [9, 9, 9]
        = .ok (.value ct) ∧
        ct.length = 16 * ([9, 9, 9].length / 16 + 1) ∧
        16 ∣ ct.length ∧ [9, 9, 9].length + 1 ≤ ct.length ∧
        (∀ m, 16 ∣ m → [9, 9, 9].length + 1 ≤ m → ct.length ≤ m) ∧
        ct.length ≤ [9, 9, 9].length + 16) ∧
    (∃ out, DetectEncryption identityBlock (fun _ => "") "AES" [9, 9, 9] 5
        (List.replicate 48 (some 1)) = .ok (out, 16 * ([9, 9, 9].length / 16 + 1))) :=
  ⟨(AESEncryption_length identityBlock [9, 9, 9]).1 (List.replicate 32 1) (List.replicate 16 2)
      (by decide) (by decide),
   (AESEncryption_length identityBlock [9, 9, 9]).2 (fun _ => "") "AES" 5
      (List.replicate 48 (some 1)) (by decide) (by decide)⟩

/-! ## RC4: the call returns and keeps the length -/

theorem ksaLoop_ok (key : List Nat) (hkey : key.length ≠ 0) (n : Nat) :
    ∀ (i : Nat) (st : Nat × List Nat), ∃ st1, ksaLoop key n i st = .ok st1 := by
  induction n with
  | zero => intro i st; exact ⟨st, rfl⟩
  | succ n ih =>
    intro i st
    simp only [ksaLoop, ksaStep, hkey, if_false, Outcome.bind_ok]
    exact ih _ _

theorem prga_length (data : List Nat) :
    ∀ (i j : Nat) (s : List Nat), (prga data i j s).length = data.length := by
  induction data with
  | nil => intro i j s; rfl
  | cons d ds ih => intro i j s; simp [prga, ih]

/-- With a non-empty key `RC4Encryption` returns a sequence as long as the
data. -/
theorem RC4Encryption_ok_length (data key : List Nat) (hkey : 1 ≤ key.length) :
    ∃ out, RC4Encryption data key = .ok out ∧ out.length = data.length := by
  obtain ⟨st, hst⟩ := ksaLoop_ok key (by omega) 256 0 (0, initS)
  exact ⟨prga data 0 0 st.2, by simp [RC4Encryption, ksa, hst], prga_length data 0 0 st.2⟩

/-! ## The passphrase generator -/

theorem charsBytes_length : charsBytes.length = 78 := by decide

theorem bitLen_77 : bitLen 77 = 7 := by decide

/-! The four cases of `rand.Int` on the alphabet size: one byte is read per
attempt and masked to 7 bits. -/

theorem randInt_chars_nil : randInt charsBytes.length [] = (none, []) := by
  rw [charsBytes_length]; rfl

theorem randInt_chars_none (rest : Entropy) :
    randInt charsBytes.length (none :: rest) = (none, rest) := by
  rw [charsBytes_length]
  simp [randInt, bitLen_77, randIntLoop, randRead]

theorem randInt_chars_accept (v : Nat) (rest : Entropy) (h : accepted (some v) = true) :
    randInt charsBytes.length (some v :: rest) = (some (v % 256 % 128), rest) := by
  simp only [accepted, decide_eq_true_eq] at h
  rw [charsBytes_length] at h ⊢
  simp [randInt, bitLen_77, randIntLoop, randRead, maskFirst, fromBytes, h]

theorem randInt_chars_reject (v : Nat) (rest : Entropy) (h : accepted (some v) = false) :
    randInt charsBytes.length (some v :: rest) = randInt charsBytes.length rest := by
  simp only [accepted, decide_eq_false_iff_not] at h
  rw [charsBytes_length] at h ⊢
  simp [randInt, bitLen_77, randIntLoop, randRead, maskFirst, fromBytes, h]


/-- Whatever the rejection loop returns is below `max`. -/
theorem randIntLoop_lt (max k b : Nat) (fuel : Nat) :
    ∀ (ent : Entropy) (idx : Nat) (rest : Entropy),
      randIntLoop max k b fuel ent = (some idx, rest) → idx < max := by
  induction fuel with
  | zero => intro ent idx rest h; simp [randIntLoop] at h
  | succ fuel ih =>
    intro ent idx rest h
    simp only [randIntLoop] at h
    cases hr : randRead k ent with
    | mk o r =>
      rw [hr] at h
      cases o with
      | none => simp at h
      | some bytes =>
        simp only at h
        split at h
        · simp only [Prod.mk.injEq, Option.some.injEq] at h
          rw [← h.1]; assumption
        · exact ih _ _ _ h

/-- Whatever `rand.Int` returns for a positive `max` is below `max`. -/
theorem randInt_lt (max : Nat) (hmax : 0 < max) (ent : Entropy) (idx : Nat) (rest : Entropy)
    (h : randInt max ent = (some idx, rest)) : idx < max := by
  unfold randInt at h
  split at h
  · simp only [Prod.mk.injEq, Option.some.injEq] at h
    rw [← h.1]; exact hmax
  · exact randIntLoop_lt _ _ _ _ _ _ _ h

/-- Whatever the passphrase loop writes has the requested length and consists
of bytes of `chars`. -/
theorem passphraseLoop_some (n : Nat) : ∀ (ent : Entropy) (p : List Nat) (r : Entropy),
    passphraseLoop n ent = (some p, r) → p.length = n ∧ ∀ b ∈ p, b ∈ charsBytes := by
  induction n with
  | zero =>
    intro ent p r h
    simp only [passphraseLoop, Prod.mk.injEq, Option.some.injEq] at h
    rw [← h.1]; exact ⟨rfl, by simp⟩
  | succ n ih =>
    intro ent p r h
    simp only [passphraseLoop] at h
    cases hi : randInt charsBytes.length ent with
    | mk o rest =>
      rw [hi] at h
      cases o with
      | none => simp at h
      | some idx =>
        simp only at h
        cases hr : passphraseLoop n rest with
        | mk o2 r2 =>
          rw [hr] at h
          cases o2 with
          | none => simp at h
          | some tl =>
            simp only [Prod.mk.injEq, Option.some.injEq] at h
            obtain ⟨htl, hmem⟩ := ih rest tl r2 hr
            rw [← h.1]
            refine ⟨by simp [htl], ?_⟩
            intro b hb
            rcases List.mem_cons.1 hb with rfl | hb
            · have hlt : idx < charsBytes.length :=
                randInt_lt _ (by rw [charsBytes_length]; decide) _ _ _ hi
              rw [List.getD_eq_getElem _ _ hlt]
              exact List.getElem_mem hlt
            · exact hmem b hb

/-- When the first `m` draws succeed and at least `n` of them are accepted, the
passphrase loop writes `n` bytes. -/
theorem passphraseLoop_of_accepted : ∀ (ent : Entropy) (n m : Nat), Succeeds m ent →
    n ≤ (ent.take m).countP accepted →
    ∃ p rest, passphraseLoop n ent = (some p, rest) ∧ p.length = n := by
  intro ent
  induction ent with
  | nil =>
    intro n m _ hc
    have : n = 0 := by simpa using hc
    subst this
    exact ⟨[], [], rfl, rfl⟩
  | cons d rest ih =>
    intro n m hs hc
    cases n with
    | zero => exact ⟨[], d :: rest, rfl, rfl⟩
    | succ n =>
      cases m with
      | zero => simp at hc
      | succ m =>
        rw [succeeds_cons] at hs
        cases d with
        | none => exact absurd rfl hs.1
        | some v =>
          rw [List.take_succ_cons, List.countP_cons] at hc
          cases ha : accepted (some v) with
          | true =>
            rw [ha] at hc
            obtain ⟨p, r, hp, hlen⟩ := ih n m hs.2 (by simpa using hc)
            exact ⟨charsBytes.getD (v % 256 % 128) 0 :: p, r,
              by simp [passphraseLoop, randInt_chars_accept v rest ha, hp], by simp [hlen]⟩
          | false =>
            rw [ha] at hc
            obtain ⟨p, r, hp, hlen⟩ := ih (n + 1) m hs.2 (by simpa using hc)
            refine ⟨p, r, ?_, hlen⟩
            rw [← hp]
            simp only [passphraseLoop, randInt_chars_reject v rest ha]

/-- When the source yields `n` passphrase indices, the passphrase loop writes
`n` bytes. -/
theorem passphraseLoop_of_yields (n : Nat) (ent : Entropy) (h : Yields n ent) :
    ∃ p rest, passphraseLoop n ent = (some p, rest) ∧ p.length = n := by
  obtain ⟨m, hs, hc⟩ := h
  exact passphraseLoop_of_accepted ent n m hs hc

/-- When the first `n + 1` draws succeed, so do the first `n`. -/
theorem succeeds_of_succ (n : Nat) : ∀ ent : Entropy, Succeeds (n + 1) ent → Succeeds n ent := by
  intro ent h
  exact (succeeds_add n 1 ent h).1

/-- When one of the first `n` draws fails, the passphrase loop stops with an
error. -/
theorem passphraseLoop_of_not_succeeds : ∀ (ent : Entropy) (n : Nat), ¬ Succeeds n ent →
    (passphraseLoop n ent).1 = none := by
  intro ent
  induction ent with
  | nil =>
    intro n h
    cases n with
    | zero => exact absurd (succeeds_zero []) h
    | succ n => simp [passphraseLoop, randInt_chars_nil]
  | cons d rest ih =>
    intro n h
    cases n with
    | zero => exact absurd (succeeds_zero _) h
    | succ n =>
      cases d with
      | none => simp [passphraseLoop, randInt_chars_none]
      | some v =>
        have hrest : ¬ Succeeds n rest := fun hs =>
          h ((succeeds_cons n (some v) rest).2 ⟨by simp, hs⟩)
        cases ha : accepted (some v) with
        | true =>
          have := ih n hrest
          simp only [passphraseLoop, randInt_chars_accept v rest ha]
          cases hr : passphraseLoop n rest with
          | mk o r =>
            rw [hr] at this
            simp only at this
            subst this
            rfl
        | false =>
          have hrest2 : ¬ Succeeds (n + 1) rest := fun hs => hrest (succeeds_of_succ n rest hs)
          have := ih (n + 1) hrest2
          rw [← this]
          simp only [passphraseLoop, randInt_chars_reject v rest ha]

/-! ## The dispatcher: lengths -/

/-- Claim C8: for every plaintext, the integer returned by `DetectEncryption`
is the plaintext's byte length for cipher "rot" with any numeric parameter,
and, when the entropy source succeeds, for ciphers "xor" and "rc4" with any
numeric parameter of at least one (the cipher name in any letter case).  For
"xor" the source succeeds when the draws of the key bytes succeed; for "rc4"
when it yields the indices of the passphrase, that is when the draws succeed
until as many of them as the parameter says have been accepted by `rand.Int`. -/
theorem DetectEncryption_length (E : AESBlock) (FormatShellcode : List Nat → String)
    (cipher : String) (plaintext : List Nat) (param : Int) (ent : Entropy) :
    (toLower cipher = "rot" →
      ∃ out, DetectEncryption E FormatShellcode cipher plaintext param ent
        = .ok (out, plaintext.length)) ∧
    (toLower cipher = "xor" → 1 ≤ param → Succeeds param.toNat ent →
      ∃ out, DetectEncryption E FormatShellcode cipher plaintext param ent
        = .ok (out, plaintext.length)) ∧
    (toLower cipher = "rc4" → 1 ≤ param → Yields param.toNat ent →
      ∃ out, DetectEncryption E FormatShellcode cipher plaintext param ent
        = .ok (out, plaintext.length)) := by
  refine ⟨fun hc => ?_, fun hc hp hs => ?_, fun hc hp hs => ?_⟩
  · exact ⟨FormatShellcode (CaesarEncryption plaintext param),
      by simp [DetectEncryption, hc, CaesarEncryption]⟩
  · have hneg : ¬ param < 0 := by omega
    obtain ⟨key, hkey, hlen, -⟩ := randRead_of_succeeds param.toNat ent hs
    have hk1 : 1 ≤ key.length := by omega
    obtain ⟨out, hout, holen, -⟩ := XOREncryption_ok plaintext key hk1
    exact ⟨FormatShellcode out, by
      simp [DetectEncryption, hc, GenerateRandomBytes, hneg, hkey, hout, holen]⟩
  · have hneg : ¬ param < 0 := by omega
    obtain ⟨p, r, hp, hlen⟩ := passphraseLoop_of_yields param.toNat ent hs
    have hk1 : 1 ≤ p.length := by omega
    obtain ⟨out, hout, holen⟩ := RC4Encryption_ok_length plaintext p hk1
    exact ⟨FormatShellcode out, by
      simp [DetectEncryption, hc, GenerateRandomPassphrase, hneg, hp, hout, holen]⟩

/-- Claim C8, witness: a three-byte plaintext under each of the three ciphers;
for "rc4" the first byte drawn is rejected by `rand.Int` and the next two are
accepted. -/
theorem DetectEncryption_length_witness :
    (∃ out, DetectEncryption identityBlock (fun _ => "") "ROT" [1, 2, 3] (-7) []
        = .ok (out, [1, 2, 3].length)) ∧
    (∃ out, DetectEncryption identityBlock (fun _ => "") "xor" [1, 2, 3] 2 [some 5, some 6]
        = .ok (out, [1, 2, 3].length)) ∧
    (∃ out, DetectEncryption identityBlock (fun _ => "") "Rc4" [1, 2, 3] 2
        [some 100, some 5, some 133] = .ok (out, [1, 2, 3].length)) :=
  ⟨(DetectEncryption_length identityBlock (fun _ => "") "ROT" [1, 2, 3] (-7) []).1 (by decide),
   (DetectEncryption_length identityBlock (fun _ => "") "xor" [1, 2, 3] 2
      [some 5, some 6]).2.1 (by decide) (by decide) (by decide),
   (DetectEncryption_length identityBlock (fun _ => "") "Rc4" [1, 2, 3] 2
      [some 100, some 5, some 133]).2.2 (by decide) (by decide) ⟨3, by decide, by decide⟩⟩

/-! ## The dispatcher: selection of the branch -/

theorem Outcome.bind_eq_abort {α β : Type} (x : Outcome α) (f : α → Outcome β) (a : Abort)
    (h : x.bind f = .abort a) : x = .abort a ∨ ∃ v, x = .ok v ∧ f v = .abort a := by
  cases x with
  | ok v => exact Or.inr ⟨v, rfl, h⟩
  | abort b =>
    rw [Outcome.bind_abort, Outcome.abort.injEq] at h
    exact Or.inl (by rw [h])

theorem GenerateRandomBytes_abort (n : Int) (ent : Entropy) (a : Abort)
    (h : GenerateRandomBytes n ent = .abort a) :
    a = .negativeLength ∨ a = .randomKeyFailure := by
  unfold GenerateRandomBytes at h
  split at h
  · simp only [Outcome.abort.injEq] at h; exact Or.inl h.symm
  · split at h
    · simp only [Outcome.abort.injEq] at h; exact Or.inr h.symm
    · simp at h

theorem GenerateRandomPassphrase_abort (n : Int) (ent : Entropy) (a : Abort)
    (h : GenerateRandomPassphrase n ent = .abort a) : a = .negativeLength := by
  unfold GenerateRandomPassphrase at h
  split at h
  · simp only [Outcome.abort.injEq] at h; exact h.symm
  · split at h <;> simp at h

theorem xorLoop_abort (key : List Nat) (a : Abort) :
    ∀ (data : List Nat) (i : Nat), xorLoop key data i = .abort a → a = .divideByZero := by
  intro data
  induction data with
  | nil => intro i h; simp [xorLoop] at h
  | cons b rest ih =>
    intro i h
    unfold xorLoop at h
    split at h
    · simp only [Outcome.abort.injEq] at h; exact h.symm
    · rcases Outcome.bind_eq_abort _ _ _ h with h1 | ⟨v, -, h2⟩
      · exact ih _ h1
      · simp at h2

/-- With an empty key the key-scheduling loop panics in its first iteration. -/
theorem ksaLoop_empty (key : List Nat) (hkey : key.length = 0) (n i : Nat)
    (st : Nat × List Nat) : ksaLoop key (n + 1) i st = .abort .divideByZero := by
  simp only [ksaLoop, ksaStep, hkey, if_true, Outcome.bind_abort]

theorem ksa_empty (key : List Nat) (hkey : key.length = 0) :
    ksa key = .abort .divideByZero :=
  ksaLoop_empty key hkey 255 0 (0, initS)

theorem RC4Encryption_abort (data key : List Nat) (a : Abort)
    (h : RC4Encryption data key = .abort a) : a = .divideByZero := by
  by_cases hkey : key.length = 0
  · rw [RC4Encryption, ksa_empty key hkey, Outcome.bind_abort] at h
    simp only [Outcome.abort.injEq] at h
    exact h.symm
  · obtain ⟨out, hout, -⟩ := RC4Encryption_ok_length data key (by omega)
    rw [hout] at h
    simp at h

theorem AESEncryption_abort (E : AESBlock) (key iv plaintext : List Nat) (a : Abort)
    (h : AESEncryption E key iv plaintext = .abort a) :
    a = .ivLength ∨ a = .notFullBlocks := by
  unfold AESEncryption at h
  split at h
  · simp at h
  · simp only [aesBlockSize] at h
    rw [show ((16 : Nat) : Int) = ((16 : Nat) : Int) from rfl,
      PKCS7Padding_pos plaintext 16 (by decide), Outcome.bind_ok] at h
    split at h
    · simp only [Outcome.abort.injEq] at h; exact Or.inl h.symm
    · split at h
      · simp only [Outcome.abort.injEq] at h; exact Or.inr h.symm
      · simp at h

/-- No supported branch ends in the unsupported-cipher abort. -/
theorem DetectEncryption_supported (E : AESBlock) (FormatShellcode : List Nat → String)
    (cipher : String) (shellcode : List Nat) (key : Int) (ent : Entropy)
    (hc : toLower cipher = "xor" ∨ toLower cipher = "rot" ∨ toLower cipher = "aes" ∨
      toLower cipher = "rc4") :
    DetectEncryption E FormatShellcode cipher shellcode key ent ≠ .abort .unsupportedCipher := by
  intro h
  rcases hc with hc | hc | hc | hc
  · simp only [DetectEncryption, hc, if_true] at h
    rcases Outcome.bind_eq_abort _ _ _ h with h1 | ⟨v, -, h2⟩
    · rcases GenerateRandomBytes_abort _ _ _ h1 with h3 | h3 <;> cases h3
    · rcases Outcome.bind_eq_abort _ _ _ h2 with h3 | ⟨w, -, h4⟩
      · cases xorLoop_abort _ _ _ _ h3
      · simp at h4
  · simp [DetectEncryption, hc] at h
  · simp only [DetectEncryption, hc] at h
    simp only [show ("aes" : String) = "xor" ↔ False from by decide,
      show ("aes" : String) = "rot" ↔ False from by decide, if_false, if_true] at h
    rcases Outcome.bind_eq_abort _ _ _ h with h1 | ⟨v, -, h2⟩
    · rcases GenerateRandomBytes_abort _ _ _ h1 with h3 | h3 <;> cases h3
    · rcases Outcome.bind_eq_abort _ _ _ h2 with h3 | ⟨w, -, h4⟩
      · rcases GenerateRandomBytes_abort _ _ _ h3 with h5 | h5 <;> cases h5
      · rcases Outcome.bind_eq_abort _ _ _ h4 with h5 | ⟨r, -, h6⟩
        · rcases AESEncryption_abort _ _ _ _ _ h5 with h7 | h7 <;> cases h7
        · cases r <;> simp at h6
  · simp only [DetectEncryption, hc] at h
    simp only [show ("rc4" : String) = "xor" ↔ False from by decide,
      show ("rc4" : String) = "rot" ↔ False from by decide,
      show ("rc4" : String) = "aes" ↔ False from by decide, if_false, if_true] at h
    rcases Outcome.bind_eq_abort _ _ _ h with h1 | ⟨v, -, h2⟩
    · cases GenerateRandomPassphrase_abort _ _ _ h1
    · rcases Outcome.bind_eq_abort _ _ _ h2 with h3 | ⟨w, -, h4⟩
      · cases RC4Encryption_abort _ _ _ h3
      · simp at h4

/-- Claim C9: `DetectEncryption` selects the algorithm by the lower-cased
cipher name: the unsupported-cipher fatal branch is taken exactly when the
lower-cased name is none of "xor", "rot", "aes", "rc4"; "blowfish" is rejected,
and "XOR", "Rot", "AES", "rC4" behave as their lower-case forms. -/
theorem DetectEncryption_unsupported_iff (E : AESBlock) (FormatShellcode : List Nat → String)
    (shellcode : List Nat) (key : Int) (ent : Entropy) :
    (∀ cipher : String,
      DetectEncryption E FormatShellcode cipher shellcode key ent = .abort .unsupportedCipher ↔
        (toLower cipher ≠ "xor" ∧ toLower cipher ≠ "rot" ∧ toLower cipher ≠ "aes" ∧
          toLower cipher ≠ "rc4")) ∧
    DetectEncryption E FormatShellcode "blowfish" shellcode key ent = .abort .unsupportedCipher ∧
    DetectEncryption E FormatShellcode "XOR" shellcode key ent
      = DetectEncryption E FormatShellcode "xor" shellcode key ent ∧
    DetectEncryption E FormatShellcode "Rot" shellcode key ent
      = DetectEncryption E FormatShellcode "rot" shellcode key ent ∧
    DetectEncryption E FormatShellcode "AES" shellcode key ent
      = DetectEncryption E FormatShellcode "aes" shellcode key ent ∧
    DetectEncryption E FormatShellcode "rC4" shellcode key ent
      = DetectEncryption E FormatShellcode "rc4" shellcode key ent := by
  refine ⟨fun cipher => ⟨fun h => ?_, fun h => ?_⟩, ?_, ?_, ?_, ?_, ?_⟩
  · have hs := DetectEncryption_supported E FormatShellcode cipher shellcode key ent
    refine ⟨fun hc => ?_, fun hc => ?_, fun hc => ?_, fun hc => ?_⟩
    · exact hs (Or.inl hc) h
    · exact hs (Or.inr (Or.inl hc)) h
    · exact hs (Or.inr (Or.inr (Or.inl hc))) h
    · exact hs (Or.inr (Or.inr (Or.inr hc))) h
  · simp [DetectEncryption, h.1, h.2.1, h.2.2.1, h.2.2.2]
  · have hl : toLower "blowfish" = "blowfish" := by decide
    simp only [DetectEncryption, hl]
    rfl
  · have hl : toLower "XOR" = toLower "xor" := by decide
    simp only [DetectEncryption, hl]
  · have hl : toLower "Rot" = toLower "rot" := by decide
    simp only [DetectEncryption, hl]
  · have hl : toLower "AES" = toLower "aes" := by decide
    simp only [DetectEncryption, hl]
  · have hl : toLower "rC4" = toLower "rc4" := by decide
    simp only [DetectEncryption, hl]

/-- Claim C9, witness: the name "Blowfish" takes the fatal branch. -/
theorem DetectEncryption_unsupported_iff_witness :
    DetectEncryption identityBlock (fun _ => "") "Blowfish" [1, 2, 3] 4 [some 1]
      = .abort .unsupportedCipher :=
  ((DetectEncryption_unsupported_iff identityBlock (fun _ => "") [1, 2, 3] 4 [some 1]).1
    "Blowfish").2 (by decide)

/-! ## The passphrase alphabet and generator -/

/-- Claim C11 (as amended): for every `n ≥ 0`, when the entropy source yields
`n` indices (its draws succeed until `n` of them have been accepted by
`rand.Int`), `GenerateRandomPassphrase(n)` returns a string of exactly `n`
characters; every character of any returned string is a member of `chars`; and
the index that `rand.Int` returns for a character is always within the bounds
of `chars`. -/
theorem GenerateRandomPassphrase_spec (n : Int) (hn : 0 ≤ n) (ent : Entropy) :
    (Yields n.toNat ent →
      ∃ p rest, GenerateRandomPassphrase n ent = .ok (p, rest) ∧
        (p.length : Int) = n ∧ ∀ b ∈ p, b ∈ charsBytes) ∧
    (∀ p rest, GenerateRandomPassphrase n ent = .ok (p, rest) → ∀ b ∈ p, b ∈ charsBytes) ∧
    (∀ (e : Entropy) (randomIndex : Nat) (rest : Entropy),
      randInt charsBytes.length e = (some randomIndex, rest) →
        randomIndex < charsBytes.length) := by
  have hneg : ¬ n < 0 := by omega
  refine ⟨fun hs => ?_, fun p rest h => ?_, fun e idx rest h => ?_⟩
  · obtain ⟨p, r, hp, hlen⟩ := passphraseLoop_of_yields n.toNat ent hs
    refine ⟨p, r, by simp [GenerateRandomPassphrase, hneg, hp], ?_,
      (passphraseLoop_some _ _ _ _ hp).2⟩
    rw [hlen]; exact Int.toNat_of_nonneg hn
  · cases hr : passphraseLoop n.toNat ent with
    | mk o r =>
      cases o with
      | none =>
        simp only [GenerateRandomPassphrase, hneg, hr, if_false, Outcome.ok.injEq,
          Prod.mk.injEq] at h
        rw [← h.1]; simp
      | some q =>
        simp only [GenerateRandomPassphrase, hneg, hr, if_false, Outcome.ok.injEq,
          Prod.mk.injEq] at h
        rw [← h.1]; exact (passphraseLoop_some _ _ _ _ hr).2
  · exact randInt_lt _ (by rw [charsBytes_length]; decide) e idx rest h

/-- Claim C11 (as amended), witness: four successful draws; the byte 100 is
rejected, the bytes 0, 77 and 133 give the indices 0, 77 and 5. -/
theorem GenerateRandomPassphrase_spec_witness :
    (∃ p rest, GenerateRandomPassphrase 3 [some 0, some 100, some 77, some 133] = .ok (p, rest) ∧
      (p.length : Int) = 3 ∧ ∀ b ∈ p, b ∈ charsBytes) ∧
    GenerateRandomPassphrase 3 [some 0, some 100, some 77, some 133] = .ok ([97, 93, 102], []) :=
  ⟨(GenerateRandomPassphrase_spec 3 (by decide) [some 0, some 100, some 77, some 133]).1
    ⟨4, by decide, by decide⟩, by decide⟩

/-- Claim C11, counterexample: when the second of two draws fails, the call
for two characters returns the empty string. -/
theorem GenerateRandomPassphrase_counterexample :
    GenerateRandomPassphrase 2 [some 1, none] = .ok ([], []) ∧
    ¬ ∃ p rest, GenerateRandomPassphrase 2 [some 1, none] = .ok (p, rest) ∧ p.length = 2 := by
  refine ⟨by decide, ?_⟩
  rintro ⟨p, rest, h, hlen⟩
  have h2 : GenerateRandomPassphrase 2 [some 1, none] = .ok ([], []) := by decide
  rw [h2] at h
  simp only [Outcome.ok.injEq, Prod.mk.injEq] at h
  rw [← h.1] at hlen
  simp at hlen

/-- Claim C12 (as amended): the passphrase alphabet `chars` consists of exactly
78 distinct characters: the 26 lowercase letters, the 26 uppercase letters,
the 10 digits and 16 symbol characters. -/
theorem chars_alphabet :
    chars.data.length = 78 ∧ chars.data.Nodup ∧
    chars.data.filter Char.isLower = "abcdefghijklmnopqrstuvwxyz".data ∧
    chars.data.filter Char.isUpper = "ABCDEFGHIJKLMNOPQRSTUVWXYZ".data ∧
    chars.data.filter Char.isDigit = "0123456789".data ∧
    (chars.data.filter fun c => !c.isAlphanum).length = 16 := by
  decide

/-- Claim C12, counterexample: the alphabet does not have 86 characters. -/
theorem chars_alphabet_counterexample : chars.data.length ≠ 86 := by
  decide

/-- Claim C15: for every `n ≥ 1`, if the entropy source fails on any of the `n`
draws, `GenerateRandomPassphrase(n)` returns the empty string (it does not
abort, and it returns no partially generated passphrase). -/
theorem GenerateRandomPassphrase_failure (n : Int) (hn : 1 ≤ n) (ent : Entropy)
    (hfail : ¬ Succeeds n.toNat ent) :
    ∃ rest, GenerateRandomPassphrase n ent = .ok ([], rest) := by
  have hneg : ¬ n < 0 := by omega
  have := passphraseLoop_of_not_succeeds ent n.toNat hfail
  cases hr : passphraseLoop n.toNat ent with
  | mk o r =>
    rw [hr] at this
    simp only at this
    subst this
    exact ⟨r, by simp [GenerateRandomPassphrase, hneg, hr]⟩

/-- Claim C15, witness: the first draw fails; a later draw fails; the source
is exhausted. -/
theorem GenerateRandomPassphrase_failure_witness :
    (∃ rest, GenerateRandomPassphrase 3 [none, some 1, some 2] = .ok ([], rest)) ∧
    (∃ rest, GenerateRandomPassphrase 3 [some 1, some 2, none] = .ok ([], rest)) ∧
    (∃ rest, GenerateRandomPassphrase 3 [some 1, some 2] = .ok ([], rest)) :=
  ⟨GenerateRandomPassphrase_failure 3 (by decide) [none, some 1, some 2] (by decide),
   GenerateRandomPassphrase_failure 3 (by decide) [some 1, some 2, none] (by decide),
   GenerateRandomPassphrase_failure 3 (by decide) [some 1, some 2] (by decide)⟩

/-! ## The dispatcher: the key material handed to the transforms -/

/-- Whatever `GenerateRandomBytes(n)` returns has `n` bytes. -/
theorem GenerateRandomBytes_length (n : Int) (hn : 0 ≤ n) (ent : Entropy) (bs : List Nat)
    (rest : Entropy) (h : GenerateRandomBytes n ent = .ok (bs, rest)) :
    (bs.length : Int) = n := by
  have hneg : ¬ n < 0 := by omega
  cases hr : randRead n.toNat ent with
  | mk o r =>
    cases o with
    | none => simp [GenerateRandomBytes, hneg, hr] at h
    | some bs2 =>
      simp only [GenerateRandomBytes, hneg, hr, if_false, Outcome.ok.injEq,
        Prod.mk.injEq] at h
      rw [← h.1, randRead_length n.toNat ent bs2 r hr]
      exact Int.toNat_of_nonneg hn

/-- Claim C13 (as amended): in every `DetectEncryption` call with a numeric
parameter of at least one, the key passed to `XOREncryption` (cipher "xor")
has as many bytes as the parameter says, hence at least one; and, when the
entropy source yields that many indices (its draws succeed until that many
have been accepted by `rand.Int`), so has the key passed to `RC4Encryption`
(cipher "rc4"). -/
theorem DetectEncryption_key_length (E : AESBlock) (FormatShellcode : List Nat → String)
    (cipher : String) (shellcode : List Nat) (param : Int) (hp : 1 ≤ param) (ent : Entropy) :
    (toLower cipher = "xor" →
      DetectEncryption E FormatShellcode cipher shellcode param ent =
        ((GenerateRandomBytes param ent).bind fun xorKey =>
          (XOREncryption shellcode xorKey.1).bind fun encryptedShellcode =>
            .ok (FormatShellcode encryptedShellcode, encryptedShellcode.length)) ∧
      ∀ xorKey rest, GenerateRandomBytes param ent = .ok (xorKey, rest) →
        (xorKey.length : Int) = param ∧ 1 ≤ xorKey.length) ∧
    (toLower cipher = "rc4" →
      DetectEncryption E FormatShellcode cipher shellcode param ent =
        ((GenerateRandomPassphrase param ent).bind fun randomPassphrase =>
          (RC4Encryption shellcode randomPassphrase.1).bind fun encryptedShellcode =>
            .ok (FormatShellcode encryptedShellcode, encryptedShellcode.length)) ∧
      (Yields param.toNat ent →
        ∃ rc4Key rest, GenerateRandomPassphrase param ent = .ok (rc4Key, rest) ∧
          (rc4Key.length : Int) = param ∧ 1 ≤ rc4Key.length)) := by
  have hneg : ¬ param < 0 := by omega
  refine ⟨fun hc => ⟨?_, fun xorKey rest h => ?_⟩, fun hc => ⟨?_, fun hs => ?_⟩⟩
  · simp [DetectEncryption, hc]
  · have := GenerateRandomBytes_length param (by omega) ent xorKey rest h
    exact ⟨this, by omega⟩
  · simp only [DetectEncryption, hc]
    simp only [show ("rc4" : String) = "xor" ↔ False from by decide,
      show ("rc4" : String) = "rot" ↔ False from by decide,
      show ("rc4" : String) = "aes" ↔ False from by decide, if_false, if_true]
  · obtain ⟨p, r, hpl, hlen⟩ := passphraseLoop_of_yields param.toNat ent hs
    refine ⟨p, r, by simp [GenerateRandomPassphrase, hneg, hpl], ?_, by omega⟩
    rw [hlen]; exact Int.toNat_of_nonneg (by omega)

/-- Claim C13 (as amended), witness: parameter 2; for "xor" two successful
draws, for "rc4" three, the first of which is rejected by `rand.Int`. -/
theorem DetectEncryption_key_length_witness :
    (∀ xorKey rest, GenerateRandomBytes 2 [some 5, some 6] = .ok (xorKey, rest) →
        (xorKey.length : Int) = 2 ∧ 1 ≤ xorKey.length) ∧
    (∃ rc4Key rest, GenerateRandomPassphrase 2 [some 100, some 5, some 133]
        = .ok (rc4Key, rest) ∧ (rc4Key.length : Int) = 2 ∧ 1 ≤ rc4Key.length) :=
  ⟨((DetectEncryption_key_length identityBlock (fun _ => "") "xor" [1, 2, 3] 2 (by decide)
      [some 5, some 6]).1 (by decide)).2,
   ((DetectEncryption_key_length identityBlock (fun _ => "") "rc4" [1, 2, 3] 2 (by decide)
      [some 100, some 5, some 133]).2 (by decide)).2 ⟨3, by decide, by decide⟩⟩

/-- Claim C13, counterexample: with numeric parameter 0 the generated XOR key
and the generated passphrase are empty, and the transform that receives the
empty key divides by zero. -/
theorem DetectEncryption_key_length_counterexample :
    GenerateRandomBytes 0 [] = .ok ([], []) ∧
    DetectEncryption identityBlock (fun _ => "") "xor" [1] 0 []
      = ((XOREncryption [1] []).bind fun e => .ok ("", e.length)) ∧
    GenerateRandomPassphrase 0 [] = .ok ([], []) ∧
    DetectEncryption identityBlock (fun _ => "") "rc4" [1] 0 []
      = ((RC4Encryption [1] []).bind fun e => .ok ("", e.length)) ∧
    DetectEncryption identityBlock (fun _ => "") "xor" [1] 0 [] = .abort .divideByZero ∧
    DetectEncryption identityBlock (fun _ => "") "rc4" [1] 0 [] = .abort .divideByZero := by
  decide

/-- Claim C14: for cipher "aes" (in any letter case), whenever the entropy
source succeeds on the 48 draws, `DetectEncryption` calls `AESEncryption` with
a key of exactly 32 bytes and an IV of exactly 16 bytes whatever the numeric
parameter is, and gets a ciphertext back; and for every plaintext, numeric
parameter and entropy source the call never ends in the panic on a
block-cipher construction error. -/
theorem DetectEncryption_aes_material (E : AESBlock) (FormatShellcode : List Nat → String)
    (cipher : String) (plaintext : List Nat) (param : Int) (ent : Entropy)
    (hc : toLower cipher = "aes") :
    (Succeeds 48 ent →
      ∃ key iv ct, GenerateRandomBytes keySize ent = .ok (key, ent.drop 32) ∧
        GenerateRandomBytes ivSize (ent.drop 32) = .ok (iv, (ent.drop 32).drop 16) ∧
        key.length = 32 ∧ iv.length = 16 ∧
        AESEncryption E key iv plaintext = .ok (.value ct) ∧
        DetectEncryption E FormatShellcode cipher plaintext param ent
          = .ok (FormatShellcode ct, ct.length)) ∧
    DetectEncryption E FormatShellcode cipher plaintext param ent ≠ .abort .cipherError := by
  constructor
  · intro hs
    obtain ⟨hs32, hs16⟩ := succeeds_add 32 16 ent hs
    obtain ⟨key, hkey, hklen, -⟩ := GenerateRandomBytes_ok 32 ent hs32
    obtain ⟨iv, hiv, hivlen, -⟩ := GenerateRandomBytes_ok 16 (ent.drop 32) hs16
    obtain ⟨ct, hct, -⟩ := AESEncryption_value_length E key iv plaintext hklen hivlen
    simp only [Nat.cast_ofNat] at hkey hiv
    refine ⟨key, iv, ct, by simpa [keySize] using hkey, by simpa [ivSize] using hiv,
      hklen, hivlen, hct, ?_⟩
    simp [DetectEncryption, hc, keySize, ivSize, hkey, hiv, hct]
  · intro h
    simp only [DetectEncryption, hc] at h
    simp only [show ("aes" : String) = "xor" ↔ False from by decide,
      show ("aes" : String) = "rot" ↔ False from by decide, if_false, if_true] at h
    rcases Outcome.bind_eq_abort _ _ _ h with h1 | ⟨key, hkey, h2⟩
    · rcases GenerateRandomBytes_abort _ _ _ h1 with h3 | h3 <;> cases h3
    · rcases Outcome.bind_eq_abort _ _ _ h2 with h3 | ⟨iv, hiv, h4⟩
      · rcases GenerateRandomBytes_abort _ _ _ h3 with h5 | h5 <;> cases h5
      · have hklen := GenerateRandomBytes_length _ (by simp [keySize]) _ _ _ hkey
        have hivlen := GenerateRandomBytes_length _ (by simp [ivSize]) _ _ _ hiv
        have hk32 : key.1.length = 32 := by
          simp only [keySize, Nat.cast_ofNat] at hklen; exact_mod_cast hklen
        have hi16 : iv.1.length = 16 := by
          simp only [ivSize, Nat.cast_ofNat] at hivlen; exact_mod_cast hivlen
        obtain ⟨ct, hct, -⟩ := AESEncryption_value_length E key.1 iv.1 plaintext hk32 hi16
        rw [hct] at h4
        simp at h4

/-- Claim C14, witness: 48 successful draws, a three-byte plaintext and the
numeric parameter 7. -/
theorem DetectEncryption_aes_material_witness :
    (∃ key iv ct, GenerateRandomBytes keySize (List.replicate 48 (some 9))
        = .ok (key, (List.replicate 48 (some 9)).drop 32) ∧
      GenerateRandomBytes ivSize ((List.replicate 48 (some 9)).drop 32)
        = .ok (iv, ((List.replicate 48 (some 9)).drop 32).drop 16) ∧
      key.length = 32 ∧ iv.length = 16 ∧
      AESEncryption identityBlock key iv [1, 2, 3] = .ok (.value ct) ∧
      DetectEncryption identityBlock (fun _ => "") "AES" [1, 2, 3] 7 (List.replicate 48 (some 9))
        = .ok ("", ct.length)) ∧
    DetectEncryption identityBlock (fun _ => "") "AES" [1, 2, 3] 7 (List.replicate 48 (some 9))
      ≠ .abort .cipherError :=
  ⟨(DetectEncryption_aes_material identityBlock (fun _ => "") "AES" [1, 2, 3] 7
      (List.replicate 48 (some 9)) (by decide)).1 (by decide),
   (DetectEncryption_aes_material identityBlock (fun _ => "") "AES" [1, 2, 3] 7
      (List.replicate 48 (some 9)) (by decide)).2⟩

/-! ## RC4: involution and keystream -/

/-- Running the keystream loop on its own output from the same state gives the
input back. -/
theorem prga_involutive (data : List Nat) :
    ∀ (i j : Nat) (s : List Nat), prga (prga data i j s) i j s = data := by
  induction data with
  | nil => intro i j s; rfl
  | cons d ds ih => intro i j s; simp [prga, ih, Nat.xor_cancel_right]

/-- The output of the keystream loop is the data XOR the output on zeros. -/
theorem prga_keystream (data : List Nat) :
    ∀ (i j : Nat) (s : List Nat),
      prga data i j s = xorBytes data (prga (List.replicate data.length 0) i j s) := by
  induction data with
  | nil => intro i j s; rfl
  | cons d ds ih =>
    intro i j s
    simp only [List.length_cons, List.replicate_succ, prga, xorBytes, List.zipWith_cons_cons,
      Nat.zero_xor]
    rw [ih]
    rfl

/-- Claim C16: for every byte sequence `data` and every key of length at least
one, `RC4Encryption(data, key)` returns some `C` and `RC4Encryption(C, key)`
returns `data`; `C` is `data` XOR a keystream that is obtained from the key and
the length alone (the output on zeros). -/
theorem RC4Encryption_involution (data key : List Nat) (hkey : 1 ≤ key.length) :
    ∃ C, RC4Encryption data key = .ok C ∧ RC4Encryption C key = .ok data ∧
      ∃ keystream, RC4Encryption (List.replicate data.length 0) key = .ok keystream ∧
        C = xorBytes data keystream := by
  obtain ⟨st, hst⟩ := ksaLoop_ok key (by omega) 256 0 (0, initS)
  refine ⟨prga data 0 0 st.2, by simp [RC4Encryption, ksa, hst], ?_,
    prga (List.replicate data.length 0) 0 0 st.2, by simp [RC4Encryption, ksa, hst],
    prga_keystream data 0 0 st.2⟩
  simp [RC4Encryption, ksa, hst, prga_involutive]

/-- Claim C16, witness: a four-byte sequence under a two-byte key. -/
theorem RC4Encryption_involution_witness :
    ∃ C, RC4Encryption [1, 2, 3, 250] [7, 9] = .ok C ∧
      RC4Encryption C [7, 9] = .ok [1, 2, 3, 250] ∧
      ∃ keystream, RC4Encryption (List.replicate [1, 2, 3, 250].length 0) [7, 9]
          = .ok keystream ∧ C = xorBytes [1, 2, 3, 250] keystream :=
  RC4Encryption_involution [1, 2, 3, 250] [7, 9] (by decide)

/-! ## RC4: the table stays a permutation -/

theorem boole_getElem_le_count (s : List Nat) (i : Nat) (h : i < s.length) (b : Nat) :
    (if s[i] == b then 1 else 0) ≤ s.count b := by
  have := List.boole_getElem_le_countP (fun x => x == b) s i h
  simpa [List.count_eq_countP] using this

/-- The swap of two positions inside the table rearranges it. -/
theorem swap_perm (s : List Nat) (i j : Nat) (hi : i < s.length) (hj : j < s.length) :
    List.Perm (swap s i j) s := by
  rw [List.perm_iff_count]
  intro b
  have h1 := boole_getElem_le_count s i hi b
  have h2 := boole_getElem_le_count s j hj b
  have hj2 : j < (s.set i s[j]).length := by simpa using hj
  unfold swap
  rw [List.getD_eq_getElem _ _ hi, List.getD_eq_getElem _ _ hj]
  rw [List.count_set _ _ _ _ hj2, List.count_set _ _ _ _ hi]
  have h3 : (s.set i s[j])[j] = s[j] := by
    rw [List.getElem_set]
    split <;> rfl
  rw [h3]
  omega

theorem IsPermutation.length_eq {s : List Nat} (h : IsPermutation s) : s.length = 256 := by
  have := List.Perm.length_eq h
  simpa using this

theorem IsPermutation.swap {s : List Nat} (h : IsPermutation s) (i j : Nat)
    (hi : i < 256) (hj : j < 256) : IsPermutation (Supernova.swap s i j) := by
  have hlen := h.length_eq
  exact (swap_perm s i j (by omega) (by omega)).trans h

theorem initS_eq_range : initS = List.range 256 := by
  unfold initS
  conv_rhs => rw [← List.map_id (List.range 256)]
  apply List.map_congr_left
  intro i hi
  exact Nat.mod_eq_of_lt (List.mem_range.1 hi)

theorem initS_isPermutation : IsPermutation initS := by
  unfold IsPermutation
  rw [initS_eq_range]

/-- The key-scheduling loop, run for `n` iterations from an index `i` with
`i + n ≤ 256`, keeps `j` below 256 and the table a permutation. -/
theorem ksaLoop_invariant (key : List Nat) (hkey : key.length ≠ 0) (n : Nat) :
    ∀ (i : Nat) (st : Nat × List Nat), i + n ≤ 256 → st.1 < 256 → IsPermutation st.2 →
      ∃ st1, ksaLoop key n i st = .ok st1 ∧ st1.1 < 256 ∧ IsPermutation st1.2 := by
  induction n with
  | zero => intro i st _ hj hs; exact ⟨st, rfl, hj, hs⟩
  | succ n ih =>
    intro i st hi hj hs
    simp only [ksaLoop, ksaStep, hkey, if_false, Outcome.bind_ok]
    exact ih (i + 1) _ (by omega) (Nat.mod_lt _ (by decide))
      (hs.swap i _ (by omega) (Nat.mod_lt _ (by decide)))

/-- The keystream loop keeps `i` and `j` below 256 and the table a
permutation. -/
theorem prgaState_invariant (data : List Nat) :
    ∀ (i j : Nat) (s : List Nat), i < 256 → j < 256 → IsPermutation s →
      (prgaState data i j s).1 < 256 ∧ (prgaState data i j s).2.1 < 256 ∧
        IsPermutation (prgaState data i j s).2.2 := by
  induction data with
  | nil => intro i j s hi hj hs; exact ⟨hi, hj, hs⟩
  | cons d ds ih =>
    intro i j s hi hj hs
    simp only [prgaState]
    exact ih _ _ _ (Nat.mod_lt _ (by decide)) (Nat.mod_lt _ (by decide))
      (hs.swap _ _ (Nat.mod_lt _ (by decide)) (Nat.mod_lt _ (by decide)))

/-- The keystream loop on a concatenation continues from the state reached
after the first part. -/
theorem prga_append (d1 d2 : List Nat) :
    ∀ (i j : Nat) (s : List Nat),
      prga (d1 ++ d2) i j s = prga d1 i j s ++
        prga d2 (prgaState d1 i j s).1 (prgaState d1 i j s).2.1 (prgaState d1 i j s).2.2 := by
  induction d1 with
  | nil => intro i j s; rfl
  | cons d ds ih => intro i j s; simp [prga, prgaState, ih]

/-- Claim C17: in `RC4Encryption`, for every key of length at least one and
every data, the 256-entry table is a permutation of the byte values 0..255
after initialisation, after every iteration of the key-scheduling loop and
after every iteration of the keystream loop, and the indices `i` and `j` with
which the table is read and swapped stay below 256, the length of the table. -/
theorem RC4Encryption_table_invariant (key data : List Nat) (hkey : 1 ≤ key.length) :
    (initS.length = 256 ∧ IsPermutation initS) ∧
    (∀ n, n ≤ 256 → ∃ st, ksaLoop key n 0 (0, initS) = .ok st ∧
      st.1 < 256 ∧ st.2.length = 256 ∧ IsPermutation st.2) ∧
    (∃ st, ksa key = .ok st ∧ ∀ m, m ≤ data.length →
      (prgaState (data.take m) 0 0 st.2).1 < 256 ∧
      (prgaState (data.take m) 0 0 st.2).2.1 < 256 ∧
      (prgaState (data.take m) 0 0 st.2).2.2.length = 256 ∧
      IsPermutation (prgaState (data.take m) 0 0 st.2).2.2 ∧
      prga data 0 0 st.2 = prga (data.take m) 0 0 st.2 ++
        prga (data.drop m) (prgaState (data.take m) 0 0 st.2).1
          (prgaState (data.take m) 0 0 st.2).2.1 (prgaState (data.take m) 0 0 st.2).2.2) := by
  have hne : key.length ≠ 0 := by omega
  refine ⟨⟨initS_isPermutation.length_eq, initS_isPermutation⟩, fun n hn => ?_, ?_⟩
  · obtain ⟨st, hst, hj, hs⟩ :=
      ksaLoop_invariant key hne n 0 (0, initS) (by omega) (by decide) initS_isPermutation
    exact ⟨st, hst, hj, hs.length_eq, hs⟩
  · obtain ⟨st, hst, -, hs⟩ :=
      ksaLoop_invariant key hne 256 0 (0, initS) (by omega) (by decide) initS_isPermutation
    refine ⟨st, hst, fun m _ => ?_⟩
    obtain ⟨h1, h2, h3⟩ := prgaState_invariant (data.take m) 0 0 st.2 (by decide) (by decide) hs
    refine ⟨h1, h2, h3.length_eq, h3, ?_⟩
    rw [← prga_append, List.take_append_drop]

/-- Claim C17, witness: a two-byte key and three bytes of data. -/
theorem RC4Encryption_table_invariant_witness :
    (∃ st, ksaLoop [7, 9] 100 0 (0, initS) = .ok st ∧
      st.1 < 256 ∧ st.2.length = 256 ∧ IsPermutation st.2) ∧
    (∃ st, ksa [7, 9] = .ok st ∧
      IsPermutation (prgaState (List.take 2 [1, 2, 3]) 0 0 st.2).2.2) := by
  have h := RC4Encryption_table_invariant [7, 9] [1, 2, 3] (by decide)
  obtain ⟨st, hst, hm⟩ := h.2.2
  exact ⟨h.2.1 100 (by decide), st, hst, (hm 2 (by decide)).2.2.2.1⟩

/-! ## RC4 and XOR with an empty key -/

/-- Claim C18: with an empty key, `RC4Encryption` fails with a division by zero
for every data, the empty sequence included, whereas `XOREncryption` fails
(with a division by zero) exactly when the data is non-empty and returns the
empty sequence for empty data. -/
theorem empty_key_failure (data : List Nat) :
    RC4Encryption data [] = .abort .divideByZero ∧
    RC4Encryption [] [] = .abort .divideByZero ∧
    (XOREncryption data [] = .abort .divideByZero ↔ data ≠ []) ∧
    ((∃ a, XOREncryption data [] = .abort a) ↔ data ≠ []) ∧
    XOREncryption [] [] = .ok [] := by
  have hrc4 : ∀ d : List Nat, RC4Encryption d [] = .abort .divideByZero := fun d => by
    rw [RC4Encryption, ksa_empty [] rfl, Outcome.bind_abort]
  refine ⟨hrc4 data, hrc4 [], ?_, ?_, rfl⟩
  · cases data with
    | nil => simp [XOREncryption, xorLoop]
    | cons b rest => simp [XOREncryption, xorLoop]
  · cases data with
    | nil => simp [XOREncryption, xorLoop]
    | cons b rest => simp [XOREncryption, xorLoop]

/-! ## RC4: only the first 256 key bytes matter -/

theorem ksaStep_first_bytes (key1 key2 : List Nat) (h1 : 256 ≤ key1.length)
    (h2 : 256 ≤ key2.length) (hagree : key1.take 256 = key2.take 256) (i : Nat) (hi : i < 256)
    (st : Nat × List Nat) : ksaStep key1 i st = ksaStep key2 i st := by
  have hk1 : key1.length ≠ 0 := by omega
  have hk2 : key2.length ≠ 0 := by omega
  have hm1 : i % key1.length = i := Nat.mod_eq_of_lt (by omega)
  have hm2 : i % key2.length = i := Nat.mod_eq_of_lt (by omega)
  have hget : key1.getD i 0 = key2.getD i 0 := by
    have e1 : (key1.take 256).getD i 0 = key1.getD i 0 := by
      simp [List.getD_eq_getElem?_getD, List.getElem?_take, hi]
    have e2 : (key2.take 256).getD i 0 = key2.getD i 0 := by
      simp [List.getD_eq_getElem?_getD, List.getElem?_take, hi]
    rw [← e1, ← e2, hagree]
  simp only [ksaStep, hk1, hk2, if_false, hm1, hm2, hget]

theorem ksaLoop_first_bytes (key1 key2 : List Nat) (h1 : 256 ≤ key1.length)
    (h2 : 256 ≤ key2.length) (hagree : key1.take 256 = key2.take 256) (n : Nat) :
    ∀ (i : Nat) (st : Nat × List Nat), i + n ≤ 256 →
      ksaLoop key1 n i st = ksaLoop key2 n i st := by
  induction n with
  | zero => intro i st _; rfl
  | succ n ih =>
    intro i st hi
    simp only [ksaLoop]
    rw [ksaStep_first_bytes key1 key2 h1 h2 hagree i (by omega) st]
    congr 1
    funext st1
    exact ih (i + 1) st1 (by omega)

/-- Claim C19: `RC4Encryption` uses only the first 256 bytes of its key: for
every data and every two keys of length at least 256 that agree on their first
256 bytes, it returns the same output. -/
theorem RC4Encryption_first_bytes (data key1 key2 : List Nat) (h1 : 256 ≤ key1.length)
    (h2 : 256 ≤ key2.length) (hagree : key1.take 256 = key2.take 256) :
    RC4Encryption data key1 = RC4Encryption data key2 := by
  unfold RC4Encryption ksa
  rw [ksaLoop_first_bytes key1 key2 h1 h2 hagree 256 0 (0, initS) (by omega)]

/-- Claim C19, witness: two keys of 257 and 258 bytes with the same first 256
bytes. -/
theorem RC4Encryption_first_bytes_witness :
    RC4Encryption [1, 2, 3] (List.replicate 256 1 ++ [5])
      = RC4Encryption [1, 2, 3] (List.replicate 256 1 ++ [9, 9]) :=
  RC4Encryption_first_bytes [1, 2, 3] (List.replicate 256 1 ++ [5])
    (List.replicate 256 1 ++ [9, 9])
    (by rw [List.length_append, List.length_replicate]; exact Nat.le_add_right _ _)
    (by rw [List.length_append, List.length_replicate]; exact Nat.le_add_right _ _)
    (by rw [List.take_left' (List.length_replicate _ _),
      List.take_left' (List.length_replicate _ _)])

/-! ## PKCS7 padding can be stripped -/

/-- Claim C20: for every byte sequence `data` and every block size `B` with
`1 ≤ B ≤ 255`, the length of `PKCS7Padding(data, B)` is a multiple of `B`, and
removing from its end as many bytes as the value of its last byte gives `data`
back. -/
theorem PKCS7Padding_strip (data : List Nat) (B : Int) (h1 : 1 ≤ B) (h255 : B ≤ 255) :
    ∃ out last, PKCS7Padding data B = .ok out ∧ B ∣ (out.length : Int) ∧
      out.getLast? = some last ∧ out.take (out.length - last) = data := by
  obtain ⟨n, rfl⟩ := Int.eq_ofNat_of_zero_le (by omega : 0 ≤ B)
  have hn : 0 < n := by omega
  have hn255 : n ≤ 255 := by omega
  have hlt : data.length % n < n := Nat.mod_lt _ hn
  have hP : (n - data.length % n) % 256 = n - data.length % n := Nat.mod_eq_of_lt (by omega)
  have hpos : 0 < n - data.length % n := by omega
  refine ⟨_, n - data.length % n, PKCS7Padding_pos data n hn, ?_, ?_, ?_⟩
  · rw [hP]
    have hlen : (data ++ List.replicate (n - data.length % n) (n - data.length % n)).length
        = n * (data.length / n + 1) := by
      simp only [List.length_append, List.length_replicate]
      have := Nat.div_add_mod data.length n
      rw [Nat.mul_add, Nat.mul_one]
      omega
    rw [hlen]
    exact ⟨((data.length / n + 1 : Nat) : Int), by push_cast; ring⟩
  · rw [hP]
    obtain ⟨k, hk⟩ : ∃ k, n - data.length % n = k + 1 := ⟨n - data.length % n - 1, by omega⟩
    rw [hk, List.replicate_succ', ← List.append_assoc, List.getLast?_append]
    simp
  · rw [hP]
    simp

/-- Claim C20, witness: three bytes padded to block size 4. -/
theorem PKCS7Padding_strip_witness :
    ∃ out last, PKCS7Padding [9, 8, 7] 4 = .ok out ∧ (4 : Int) ∣ (out.length : Int) ∧
      out.getLast? = some last ∧ out.take (out.length - last) = [9, 8, 7] :=
  PKCS7Padding_strip [9, 8, 7] 4 (by decide) (by decide)

end Supernova
